import Mathlib

/-!
Verification of FMAlign2 components: the `clean_sequence` normalizer and
`ArgParser` from `src/src/utils.cpp`, and the anchor-chain gap-filling and
merge engine declared in `src/include/sequence_split_align.h`.
-/

namespace FMAlign2

/-- Character-by-character body of the loop in `clean_sequence`
(`src/src/utils.cpp` lines 115-132): a/A, c/C, g/G, t/T are upper-cased and
kept; every other character becomes the gap character. -/
def clean_chars : List Char → List Char
  | [] => []
  | c :: cs =>
    (if c = 'a' ∨ c = 'A' then 'A'
     else if c = 'c' ∨ c = 'C' then 'C'
     else if c = 'g' ∨ c = 'G' then 'G'
     else if c = 't' ∨ c = 'T' then 'T'
     else '-') :: clean_chars cs

/-- `clean_sequence` from `src/src/utils.cpp`: builds a new string by pushing
one transformed character per input character. -/
def clean_sequence (s : String) : String := ⟨clean_chars s.data⟩

theorem clean_chars_length (l : List Char) : (clean_chars l).length = l.length := by
  induction l with
  | nil => rfl
  | cons c cs ih => simp [clean_chars, ih]

theorem clean_chars_mem (l : List Char) :
    ∀ c ∈ clean_chars l, c = 'A' ∨ c = 'C' ∨ c = 'G' ∨ c = 'T' ∨ c = '-' := by
  induction l with
  | nil => intro c hc; simp [clean_chars] at hc
  | cons a as ih =>
    intro c hc
    simp only [clean_chars, List.mem_cons] at hc
    rcases hc with h | h
    · subst h; split_ifs <;> simp
    · exact ih c h

theorem clean_chars_getD (l : List Char) :
    ∀ i, i < l.length →
      (clean_chars l).getD i ' ' =
        (if l.getD i ' ' = 'a' ∨ l.getD i ' ' = 'A' then 'A'
         else if l.getD i ' ' = 'c' ∨ l.getD i ' ' = 'C' then 'C'
         else if l.getD i ' ' = 'g' ∨ l.getD i ' ' = 'G' then 'G'
         else if l.getD i ' ' = 't' ∨ l.getD i ' ' = 'T' then 'T'
         else '-') := by
  induction l with
  | nil => intro i hi; simp at hi
  | cons a as ih =>
    intro i hi
    cases i with
    | zero => simp [clean_chars]
    | succ j =>
      simp only [clean_chars, List.getD_cons_succ]
      exact ih j (by simpa using hi)

/-- C8: `clean_sequence` preserves length, outputs only characters in
{A, C, G, T, -}, upper-cases and keeps a/A c/C g/G t/T, and replaces every
other character by the gap character (rather than removing it). -/
theorem clean_sequence_char_map (s : String) :
    (clean_sequence s).length = s.length ∧
    (∀ c ∈ (clean_sequence s).data,
      c = 'A' ∨ c = 'C' ∨ c = 'G' ∨ c = 'T' ∨ c = '-') ∧
    (∀ i, i < s.data.length →
      (clean_sequence s).data.getD i ' ' =
        (if s.data.getD i ' ' = 'a' ∨ s.data.getD i ' ' = 'A' then 'A'
         else if s.data.getD i ' ' = 'c' ∨ s.data.getD i ' ' = 'C' then 'C'
         else if s.data.getD i ' ' = 'g' ∨ s.data.getD i ' ' = 'G' then 'G'
         else if s.data.getD i ' ' = 't' ∨ s.data.getD i ' ' = 'T' then 'T'
         else '-')) := by
  exact ⟨clean_chars_length s.data, clean_chars_mem s.data, clean_chars_getD s.data⟩

/-- Witness for C8 at a concrete input. -/
theorem clean_sequence_char_map_witness :
    (clean_sequence "acgtXn-T").length = ("acgtXn-T" : String).length ∧
    (∀ c ∈ (clean_sequence "acgtXn-T").data,
      c = 'A' ∨ c = 'C' ∨ c = 'G' ∨ c = 'T' ∨ c = '-') ∧
    (∀ i, i < ("acgtXn-T" : String).data.length →
      (clean_sequence "acgtXn-T").data.getD i ' ' =
        (if ("acgtXn-T" : String).data.getD i ' ' = 'a' ∨ ("acgtXn-T" : String).data.getD i ' ' = 'A' then 'A'
         else if ("acgtXn-T" : String).data.getD i ' ' = 'c' ∨ ("acgtXn-T" : String).data.getD i ' ' = 'C' then 'C'
         else if ("acgtXn-T" : String).data.getD i ' ' = 'g' ∨ ("acgtXn-T" : String).data.getD i ' ' = 'G' then 'G'
         else if ("acgtXn-T" : String).data.getD i ' ' = 't' ∨ ("acgtXn-T" : String).data.getD i ' ' = 'T' then 'T'
         else '-')) :=
  clean_sequence_char_map "acgtXn-T"

/-- Modelled from the spec: the implementation of `get_remaining_cols` is not
under src/ (only its declaration with doc comment in
`src/include/sequence_split_align.h` lines 62-68). Per the header doc and spec
section 4.1, it returns every index in [0, n) that is not present in
`selected_cols`, in ascending order. -/
def get_remaining_cols (n : Nat) (selected_cols : List Nat) : List Nat :=
  (List.range n).filter (fun i => i ∉ selected_cols)

/-- C3: `get_remaining_cols n S` is sorted ascending, duplicate-free, and is
exactly [0, n) \ S; with S drawn from [0, n), the union of S and the result is
[0, n) and their intersection is empty. -/
theorem get_remaining_cols_complement (n : Nat) (S : List Nat)
    (hS : ∀ s ∈ S, s < n) :
    List.Sorted (· < ·) (get_remaining_cols n S) ∧
    (get_remaining_cols n S).Nodup ∧
    (∀ i, i ∈ get_remaining_cols n S ↔ i < n ∧ i ∉ S) ∧
    (∀ i, i < n ↔ (i ∈ S ∨ i ∈ get_remaining_cols n S)) ∧
    (∀ i, ¬ (i ∈ S ∧ i ∈ get_remaining_cols n S)) := by
  have hmem : ∀ i, i ∈ get_remaining_cols n S ↔ i < n ∧ i ∉ S := by
    intro i
    simp [get_remaining_cols, List.mem_filter, List.mem_range]
  refine ⟨?_, ?_, hmem, ?_, ?_⟩
  · exact (List.sorted_lt_range n).filter _
  · exact (List.nodup_range n).filter _
  · intro i
    constructor
    · intro hi
      by_cases hs : i ∈ S
      · exact Or.inl hs
      · exact Or.inr ((hmem i).2 ⟨hi, hs⟩)
    · intro h
      rcases h with h | h
      · exact hS i h
      · exact ((hmem i).1 h).1
  · intro i ⟨hs, hr⟩
    exact ((hmem i).1 hr).2 hs

/-- Witness for C3 at n = 6, S = [1, 4]. -/
theorem get_remaining_cols_complement_witness :
    (∀ s ∈ [1, 4], s < 6) ∧
    (List.Sorted (· < ·) (get_remaining_cols 6 [1, 4]) ∧
     (get_remaining_cols 6 [1, 4]).Nodup ∧
     (∀ i, i ∈ get_remaining_cols 6 [1, 4] ↔ i < 6 ∧ i ∉ [1, 4]) ∧
     (∀ i, i < 6 ↔ (i ∈ [1, 4] ∨ i ∈ get_remaining_cols 6 [1, 4])) ∧
     (∀ i, ¬ (i ∈ [1, 4] ∧ i ∈ get_remaining_cols 6 [1, 4]))) :=
  ⟨by decide, get_remaining_cols_complement 6 [1, 4] (by decide)⟩

/-- Result of one pairwise StripedSmithWaterman invocation, as consumed by
`store_sw_alignment` (header lines 86-99): reference begin/end offsets and a
traceback cigar, each operation a (kind, run-length) pair; kind 'D' deletes
reference positions (one gap character each in the query row), other kinds
consume query characters. -/
structure Alignment where
  sw_score : Int
  ref_begin : Int
  ref_end : Int
  cigar : List (Char × Nat)

/-- Modelled from the spec: traceback decoding (spec section 4.3) — one gap
character per deleted reference position, query characters kept in order
otherwise. -/
def decode_fragment : List (Char × Nat) → List Char → List Char
  | [], _ => []
  | (op, len) :: rest, q =>
    if op = 'D' then List.replicate len '-' ++ decode_fragment rest q
    else q.take len ++ decode_fragment rest (q.drop len)

/-- Modelled from the spec: the implementation of `store_sw_alignment` is not
under src/ (only its declaration in `src/include/sequence_split_align.h`
lines 86-99). Per the header doc and spec section 4.3: on failure (no usable
traceback) it returns (-1, -1) and the Result Store keeps the untouched raw
query (spec section 8 failure fallback); on success it stores the decoded
fragment at `seq_index` and returns the alignment start and length in the
reference. -/
def store_sw_alignment (alignment : Alignment) (ref query : List Char)
    (res_store : List (List Char)) (seq_index : Nat) :
    (Int × Int) × List (List Char) :=
  if alignment.cigar = [] then
    ((-1, -1), res_store.set seq_index query)
  else
    ((alignment.ref_begin, alignment.ref_end - alignment.ref_begin + 1),
     res_store.set seq_index (decode_fragment alignment.cigar query))

theorem getD_set_self {α : Type} (l : List α) (i : Nat) (a d : α)
    (h : i < l.length) : (l.set i a).getD i d = a := by
  induction l generalizing i with
  | nil => simp at h
  | cons x xs ih =>
    cases i with
    | zero => rfl
    | succ j =>
      simp only [List.set_cons_succ, List.getD_cons_succ]
      exact ih j (by simpa using h)

/-- C4: whenever `store_sw_alignment` returns the failure sentinel (-1, -1),
the Result Store entry for the query equals the untouched raw query substring
(no gap characters inserted) and no other entry changes. -/
theorem store_sw_alignment_failure_fallback (a : Alignment) (ref q : List Char)
    (rs : List (List Char)) (i : Nat) (hwf : 0 ≤ a.ref_begin)
    (hfail : (store_sw_alignment a ref q rs i).1 = (-1, -1))
    (hi : i < rs.length) :
    (store_sw_alignment a ref q rs i).2 = rs.set i q ∧
    ((store_sw_alignment a ref q rs i).2).getD i [] = q := by
  by_cases hc : a.cigar = []
  · constructor
    · simp [store_sw_alignment, hc]
    · simp only [store_sw_alignment, hc, if_pos]
      exact getD_set_self rs i q [] hi
  · exfalso
    simp only [store_sw_alignment, hc, if_neg, ite_false, Prod.mk.injEq] at hfail
    have : a.ref_begin = -1 := hfail.1
    omega

/-- Witness for C4: a failed alignment (empty cigar) over a two-row store. -/
theorem store_sw_alignment_failure_fallback_witness :
    (0 : Int) ≤ (Alignment.mk 0 0 0 []).ref_begin ∧
    (store_sw_alignment (Alignment.mk 0 0 0 []) ['A', 'C'] ['G', 'G']
       [['T'], []] 0).1 = (-1, -1) ∧
    (0 < ([['T'], []] : List (List Char)).length) ∧
    ((store_sw_alignment (Alignment.mk 0 0 0 []) ['A', 'C'] ['G', 'G']
        [['T'], []] 0).2 = [['T'], []].set 0 ['G', 'G'] ∧
     ((store_sw_alignment (Alignment.mk 0 0 0 []) ['A', 'C'] ['G', 'G']
         [['T'], []] 0).2).getD 0 [] = ['G', 'G']) :=
  ⟨by decide, by rfl, by decide,
   store_sw_alignment_failure_fallback (Alignment.mk 0 0 0 []) ['A', 'C']
     ['G', 'G'] [['T'], []] 0 (by decide) (by rfl) (by decide)⟩

/-- C7: `store_sw_alignment` is deterministic — two invocations on the same
(reference, query) pair and store yield the same (start, length) pair and the
same stored fragments. -/
theorem store_sw_alignment_deterministic (a : Alignment) (ref q : List Char)
    (rs : List (List Char)) (i : Nat) (o₁ o₂ : (Int × Int) × List (List Char))
    (h₁ : store_sw_alignment a ref q rs i = o₁)
    (h₂ : store_sw_alignment a ref q rs i = o₂) :
    o₁.1 = o₂.1 ∧ o₁.2 = o₂.2 := by
  subst h₁; subst h₂; exact ⟨rfl, rfl⟩

/-- Witness for C7 at a concrete invocation. -/
theorem store_sw_alignment_deterministic_witness :
    (store_sw_alignment (Alignment.mk 2 0 1 [('M', 2)]) ['A', 'C'] ['A', 'C']
        [[]] 0 =
      ((0, 2), [['A', 'C']])) ∧
    ((((0 : Int), (2 : Int)), [['A', 'C']]) :
        (Int × Int) × List (List Char)).1 =
      ((((0 : Int), (2 : Int)), [['A', 'C']]) :
        (Int × Int) × List (List Char)).1 ∧
    ((((0 : Int), (2 : Int)), [['A', 'C']]) :
        (Int × Int) × List (List Char)).2 =
      ((((0 : Int), (2 : Int)), [['A', 'C']]) :
        (Int × Int) × List (List Char)).2 :=
  ⟨by rfl,
   store_sw_alignment_deterministic (Alignment.mk 2 0 1 [('M', 2)])
     ['A', 'C'] ['A', 'C'] [[]] 0 _ _ (by rfl) (by rfl)⟩

/-- Modelled from the spec: the implementation of `expand_chain` is not under
src/ (only its declaration in `src/include/sequence_split_align.h` lines
70-84). Per the header doc and spec section 4.4, the treatment of one residual
column for one sequence: an empty chain cell means the raw unaligned region is
copied through as-is into the Result Store; a non-empty cell means the Gap
Aligner's fragment for the (reference, query) pair is stored. -/
def expand_chain_store (cell : Option (Nat × Nat)) (alignment : Alignment)
    (ref raw : List Char) (res_store : List (List Char)) (i : Nat) :
    List (List Char) :=
  match cell with
  | none => res_store.set i raw
  | some _ => (store_sw_alignment alignment ref raw res_store i).2

/-- C6: at a residual column, a sequence with an empty chain cell has its raw
region stored unmodified (no gap characters inserted), while a sequence with a
non-empty cell receives exactly the Gap Aligner's stored fragment. -/
theorem expand_chain_empty_cell_passthrough (cell : Option (Nat × Nat))
    (a : Alignment) (ref raw : List Char) (rs : List (List Char)) (i : Nat)
    (hi : i < rs.length) :
    (cell = none →
      (expand_chain_store cell a ref raw rs i).getD i [] = raw) ∧
    (∀ p, cell = some p →
      expand_chain_store cell a ref raw rs i =
        (store_sw_alignment a ref raw rs i).2 ∧
      (a.cigar ≠ [] →
        (expand_chain_store cell a ref raw rs i).getD i [] =
          decode_fragment a.cigar raw)) := by
  constructor
  · intro h
    subst h
    exact getD_set_self rs i raw [] hi
  · intro p hp
    subst hp
    refine ⟨rfl, ?_⟩
    intro hc
    simp only [expand_chain_store, store_sw_alignment, hc, ite_false,
      if_neg hc]
    exact getD_set_self rs i (decode_fragment a.cigar raw) [] hi

/-- Witness for C6 at a concrete column: one empty cell, one present cell. -/
theorem expand_chain_empty_cell_passthrough_witness :
    (0 < ([['A'], ['C']] : List (List Char)).length) ∧
    ((none = (none : Option (Nat × Nat)) →
      (expand_chain_store none (Alignment.mk 1 0 0 [('M', 1)]) ['A'] ['G']
          [['A'], ['C']] 0).getD 0 [] = ['G']) ∧
     (∀ p, (none : Option (Nat × Nat)) = some p →
       expand_chain_store none (Alignment.mk 1 0 0 [('M', 1)]) ['A'] ['G']
           [['A'], ['C']] 0 =
         (store_sw_alignment (Alignment.mk 1 0 0 [('M', 1)]) ['A'] ['G']
             [['A'], ['C']] 0).2 ∧
       ((Alignment.mk 1 0 0 [('M', 1)]).cigar ≠ [] →
         (expand_chain_store none (Alignment.mk 1 0 0 [('M', 1)]) ['A'] ['G']
             [['A'], ['C']] 0).getD 0 [] =
           decode_fragment (Alignment.mk 1 0 0 [('M', 1)]).cigar ['G']))) :=
  ⟨by decide,
   expand_chain_empty_cell_passthrough none (Alignment.mk 1 0 0 [('M', 1)])
     ['A'] ['G'] [['A'], ['C']] 0 (by decide)⟩

/-- Gap removal: drop every gap character from an aligned row. -/
def degap (s : List Char) : List Char := s.filter (fun c => c ≠ '-')

/-- Modelled from the spec: the implementation of `concat_alignment` is not
under src/ (only its declaration in `src/include/sequence_split_align.h` line
120). Per spec section 4.6, the merger produces one sequence's final row by
concatenating, in column order, the anchor-column contents and the resolved
gap fragments for that sequence. -/
def concat_alignment_row (pieces : List (List Char)) : List Char :=
  pieces.flatten

/-- C1: if every piece of a sequence's merged row degaps to its raw region,
and those raw regions concatenated give the original sequence, then removing
all gap characters from the merged row reproduces the original raw content. -/
theorem concat_alignment_roundtrip (pieces raws : List (List Char))
    (original : List Char)
    (hfrag : List.Forall₂ (fun frag raw => degap frag = raw) pieces raws)
    (hcover : raws.flatten = original) :
    degap (concat_alignment_row pieces) = original := by
  subst hcover
  induction hfrag with
  | nil => rfl
  | cons h _ ih =>
    simp only [concat_alignment_row, List.flatten_cons, degap,
      List.filter_append] at *
    rw [ih, h]

/-- Witness for C1: anchors and fragments of a small two-piece row. -/
theorem concat_alignment_roundtrip_witness :
    List.Forall₂ (fun frag raw => degap frag = raw)
      [['A', '-', 'C'], ['G']] [['A', 'C'], ['G']] ∧
    ([['A', 'C'], ['G']] : List (List Char)).flatten = ['A', 'C', 'G'] ∧
    degap (concat_alignment_row [['A', '-', 'C'], ['G']]) = ['A', 'C', 'G'] :=
  ⟨by decide, by rfl,
   concat_alignment_roundtrip [['A', '-', 'C'], ['G']] [['A', 'C'], ['G']]
     ['A', 'C', 'G'] (by decide) (by rfl)⟩

/-- Modelled from the spec: the implementation of `split_and_parallel_align`
is not under src/ (only its declaration in `src/include/sequence_split_align.h`
line 54). Per spec sections 4.6-4.7 and 6, the pipeline ends by producing one
merged row per input sequence, in the original input order, concatenating each
sequence's fragments over the common global task list. `fragments` holds, per
input sequence (outer, input order), that sequence's fragment for every task
(inner, global task order). -/
def split_and_parallel_align_rows (fragments : List (List (List Char))) :
    List (List Char) :=
  fragments.map List.flatten

theorem flatten_length_eq_of_forall₂ (p q : List (List Char))
    (h : List.Forall₂ (fun a b => a.length = b.length) p q) :
    p.flatten.length = q.flatten.length := by
  induction h with
  | nil => rfl
  | cons h _ ih => simp only [List.flatten_cons, List.length_append, h, ih]

theorem getD_map_flatten (l : List (List (List Char))) (i : Nat)
    (hi : i < l.length) :
    (l.map List.flatten).getD i [] = (l.getD i []).flatten := by
  induction l generalizing i with
  | nil => simp at hi
  | cons x xs ih =>
    cases i with
    | zero => rfl
    | succ j =>
      simp only [List.map_cons, List.getD_cons_succ]
      exact ih j (by simpa using hi)

/-- C2: when, task by task, all sequences' fragments have equal length, the
pipeline output has one row per input sequence, the i-th row is built from the
i-th input sequence's fragments (original input order), and all rows have
identical length. -/
theorem split_and_parallel_align_output_shape
    (fragments : List (List (List Char)))
    (hshape : ∀ p ∈ fragments, ∀ q ∈ fragments,
      List.Forall₂ (fun a b => a.length = b.length) p q) :
    (split_and_parallel_align_rows fragments).length = fragments.length ∧
    (∀ i, i < fragments.length →
      (split_and_parallel_align_rows fragments).getD i [] =
        (fragments.getD i []).flatten) ∧
    (∀ r ∈ split_and_parallel_align_rows fragments,
      ∀ r₂ ∈ split_and_parallel_align_rows fragments,
        r.length = r₂.length) := by
  refine ⟨by simp [split_and_parallel_align_rows], ?_, ?_⟩
  · intro i hi
    exact getD_map_flatten fragments i hi
  · intro r hr r₂ hr₂
    simp only [split_and_parallel_align_rows, List.mem_map] at hr hr₂
    obtain ⟨p, hp, rfl⟩ := hr
    obtain ⟨q, hq, rfl⟩ := hr₂
    exact flatten_length_eq_of_forall₂ p q (hshape p hp q hq)

/-- Witness for C2: two sequences, two tasks with per-task equal lengths. -/
theorem split_and_parallel_align_output_shape_witness :
    (∀ p ∈ [[['A', '-'], ['C']], [['G', 'G'], ['-']]],
      ∀ q ∈ [[['A', '-'], ['C']], [['G', 'G'], ['-']]],
        List.Forall₂ (fun (a b : List Char) => a.length = b.length) p q) ∧
    ((split_and_parallel_align_rows
        [[['A', '-'], ['C']], [['G', 'G'], ['-']]]).length =
      ([[['A', '-'], ['C']], [['G', 'G'], ['-']]] :
        List (List (List Char))).length ∧
     (∀ i, i < ([[['A', '-'], ['C']], [['G', 'G'], ['-']]] :
        List (List (List Char))).length →
       (split_and_parallel_align_rows
           [[['A', '-'], ['C']], [['G', 'G'], ['-']]]).getD i [] =
         (([[['A', '-'], ['C']], [['G', 'G'], ['-']]] :
            List (List (List Char))).getD i []).flatten) ∧
     (∀ r ∈ split_and_parallel_align_rows
        [[['A', '-'], ['C']], [['G', 'G'], ['-']]],
       ∀ r₂ ∈ split_and_parallel_align_rows
          [[['A', '-'], ['C']], [['G', 'G'], ['-']]],
         r.length = r₂.length)) :=
  ⟨by decide,
   split_and_parallel_align_output_shape
     [[['A', '-'], ['C']], [['G', 'G'], ['-']]] (by decide)⟩

/-- Modelled from the spec: helper for `get_parallel_align_range` — the gap
range starting at `pos` before each next selected anchor, and the trailing
range ending at the sequence length. -/
def parallel_range_aux (pos L : Nat) : List (Nat × Nat) → List (Nat × Nat)
  | [] => [(pos, L)]
  | (s, l) :: rest => (pos, s) :: parallel_range_aux (s + l) L rest

/-- Modelled from the spec: the implementation of `get_parallel_align_range`
is not under src/ (only its declaration in `src/include/sequence_split_align.h`
lines 101-107). Per spec section 4.2, for one sequence of length `L` with the
chain restricted to selected anchors `anchors` (each a (start, length) pair,
in chain-column order), it returns the ordered Alignment Ranges spanning
consecutive selected anchors: the first starts at offset 0, each later one at
the previous anchor's end, and the last ends at `L`. -/
def get_parallel_align_range_seq (L : Nat) (anchors : List (Nat × Nat)) :
    List (Nat × Nat) :=
  parallel_range_aux 0 L anchors

/-- Chain invariant for one sequence (spec section 3): anchors are in strictly
covering order — each starts no earlier than the running position and the
whole chain fits in the sequence. -/
def chain_ok (pos L : Nat) : List (Nat × Nat) → Prop
  | [] => pos ≤ L
  | (s, l) :: rest => pos ≤ s ∧ chain_ok (s + l) L rest

instance chain_ok_decidable (pos L : Nat) (anchors : List (Nat × Nat)) :
    Decidable (chain_ok pos L anchors) := by
  induction anchors generalizing pos with
  | nil => exact inferInstanceAs (Decidable (pos ≤ L))
  | cons a rest ih =>
    exact @instDecidableAnd _ _ _ (ih (a.1 + a.2))

/-- A list of half-open intervals tiles [a, b): each starts where the previous
ended, the first at `a`, the last ending at `b`, every interval well-formed. -/
def tiles (a b : Nat) : List (Nat × Nat) → Prop
  | [] => a = b
  | (s, e) :: rest => s = a ∧ a ≤ e ∧ tiles e b rest

instance tiles_decidable (a b : Nat) (l : List (Nat × Nat)) :
    Decidable (tiles a b l) := by
  induction l generalizing a with
  | nil => exact inferInstanceAs (Decidable (a = b))
  | cons p rest ih =>
    exact @instDecidableAnd _ _ _ (@instDecidableAnd _ _ _ (ih p.2))

/-- Alternates elements of two lists, starting with the first. -/
def interleave : List α → List α → List α
  | [], ys => ys
  | x :: xs, [] => x :: xs
  | x :: xs, y :: ys => x :: y :: interleave xs ys

/-- The span [start, start + length) occupied by an anchor. -/
def anchor_span (p : Nat × Nat) : Nat × Nat := (p.1, p.1 + p.2)

theorem chain_ok_le (pos L : Nat) (anchors : List (Nat × Nat))
    (h : chain_ok pos L anchors) : pos ≤ L := by
  induction anchors generalizing pos with
  | nil => exact h
  | cons p rest ih =>
    obtain ⟨h₁, h₂⟩ := h
    exact le_trans (le_trans h₁ (Nat.le_add_right p.1 p.2)) (ih (p.1 + p.2) h₂)

theorem parallel_range_aux_bounds (pos L : Nat) (anchors : List (Nat × Nat))
    (h : chain_ok pos L anchors) :
    ∀ r ∈ parallel_range_aux pos L anchors, r.1 ≤ r.2 ∧ r.2 ≤ L := by
  induction anchors generalizing pos with
  | nil =>
    intro r hr
    simp only [parallel_range_aux, List.mem_singleton] at hr
    subst hr
    exact ⟨h, le_refl L⟩
  | cons p rest ih =>
    intro r hr
    obtain ⟨h₁, h₂⟩ := h
    simp only [parallel_range_aux, List.mem_cons] at hr
    rcases hr with hr | hr
    · subst hr
      refine ⟨h₁, ?_⟩
      exact le_trans (Nat.le_add_right p.1 p.2) (chain_ok_le _ L rest h₂)
    · exact ih (p.1 + p.2) h₂ r hr

theorem parallel_range_aux_head (pos L : Nat) (anchors : List (Nat × Nat)) :
    ∃ e rest, parallel_range_aux pos L anchors = (pos, e) :: rest := by
  cases anchors with
  | nil => exact ⟨L, [], rfl⟩
  | cons p rest => exact ⟨p.1, parallel_range_aux (p.1 + p.2) L rest, rfl⟩

theorem parallel_range_aux_nonoverlap (pos L : Nat)
    (anchors : List (Nat × Nat)) (h : chain_ok pos L anchors) :
    List.Chain' (fun r r₂ : Nat × Nat => r.2 ≤ r₂.1)
      (parallel_range_aux pos L anchors) := by
  induction anchors generalizing pos with
  | nil => simp [parallel_range_aux]
  | cons p rest ih =>
    obtain ⟨h₁, h₂⟩ := h
    obtain ⟨e, tail, heq⟩ := parallel_range_aux_head (p.1 + p.2) L rest
    simp only [parallel_range_aux, heq]
    refine List.Chain'.cons ?_ ?_
    · exact Nat.le_add_right p.1 p.2
    · rw [← heq]
      exact ih (p.1 + p.2) h₂

theorem parallel_range_aux_tiles (pos L : Nat) (anchors : List (Nat × Nat))
    (h : chain_ok pos L anchors) :
    tiles pos L
      (interleave (parallel_range_aux pos L anchors)
        (anchors.map anchor_span)) := by
  induction anchors generalizing pos with
  | nil =>
    simp only [parallel_range_aux, List.map_nil, interleave, tiles]
    exact ⟨trivial, h, trivial⟩
  | cons p rest ih =>
    obtain ⟨h₁, h₂⟩ := h
    simp only [parallel_range_aux, List.map_cons, anchor_span, interleave,
      tiles]
    exact ⟨trivial, h₁, trivial, Nat.le_add_right p.1 p.2, ih (p.1 + p.2) h₂⟩

/-- C5: under the chain invariants, every Alignment Range [start, end) of a
sequence satisfies start ≤ end ≤ sequence length, successive ranges do not
overlap, and the ranges interleaved with the anchor spans tile the whole
sequence [0, length). -/
theorem get_parallel_align_range_correct (L : Nat)
    (anchors : List (Nat × Nat)) (h : chain_ok 0 L anchors) :
    (∀ r ∈ get_parallel_align_range_seq L anchors, r.1 ≤ r.2 ∧ r.2 ≤ L) ∧
    List.Chain' (fun r r₂ : Nat × Nat => r.2 ≤ r₂.1)
      (get_parallel_align_range_seq L anchors) ∧
    tiles 0 L
      (interleave (get_parallel_align_range_seq L anchors)
        (anchors.map anchor_span)) :=
  ⟨parallel_range_aux_bounds 0 L anchors h,
   parallel_range_aux_nonoverlap 0 L anchors h,
   parallel_range_aux_tiles 0 L anchors h⟩

/-- Witness for C5: a length-10 sequence with anchors at [2,4) and [6,9). -/
theorem get_parallel_align_range_correct_witness :
    chain_ok 0 10 [(2, 2), (6, 3)] ∧
    ((∀ r ∈ get_parallel_align_range_seq 10 [(2, 2), (6, 3)],
        r.1 ≤ r.2 ∧ r.2 ≤ 10) ∧
     List.Chain' (fun r r₂ : Nat × Nat => r.2 ≤ r₂.1)
       (get_parallel_align_range_seq 10 [(2, 2), (6, 3)]) ∧
     tiles 0 10
       (interleave (get_parallel_align_range_seq 10 [(2, 2), (6, 3)])
         (([(2, 2), (6, 3)] : List (Nat × Nat)).map anchor_span))) :=
  ⟨by decide, get_parallel_align_range_correct 10 [(2, 2), (6, 3)] (by decide)⟩

/-- One registered `ArgParser` argument (`src/src/utils.cpp`): whether it is
required, its default value, help text, and the value assigned so far (empty
string when unset, as in the C++ code). -/
structure Arg where
  required : Bool
  default_value : String
  help_text : String
  value : String

/-- C++ `std::string::operator[]`: the character at index `i`, the null
character at the terminator (the parser only indexes at or before the size). -/
def charAt (s : String) (i : Nat) : Char := s.data.getD i (Char.ofNat 0)

/-- C++ `std::string::substr(i)`. -/
def substrFrom (s : String) (i : Nat) : String := ⟨s.data.drop i⟩

/-- Observable outcome of `ArgParser::parse_args`: normal return, a thrown
`std::invalid_argument` message, or print-help-and-exit(0). -/
inductive ParseOutcome (α : Type) where
  | ok (a : α)
  | err (msg : String)
  | help

def ParseOutcome.map (f : α → β) : ParseOutcome α → ParseOutcome β
  | .ok a => .ok (f a)
  | .err e => .err e
  | .help => .help

/-- `args_[name] = a` on an existing key of the registered-argument map. -/
def setArg (args : List (String × Arg)) (n : String) (a : Arg) :
    List (String × Arg) :=
  args.map (fun p => if p.1 = n then (n, a) else p)

/-- One iteration of the token loop of `ArgParser::parse_args`
(`src/src/utils.cpp` lines 170-225) on token `t` with the remaining tokens
`rest`: either an updated map plus how many extra tokens were consumed, a
thrown message, or help. The long branch handles `--name`; the short branch is
the inner `for` loop, which always breaks after its first iteration (j = 1)
and so only runs when the token has at least two characters. -/
def scan_step (args : List (String × Arg)) (t : String) (rest : List String) :
    ParseOutcome (List (String × Arg) × Nat) :=
  if charAt t 0 = '-' then
    if charAt t 1 = '-' then
      if substrFrom t 2 = "help" ∨ t = "h" then .help
      else
        match List.lookup (substrFrom t 2) args with
        | none => .err ("Invalid argument: " ++ t)
        | some a =>
          if a.value ≠ "" then .err ("Duplicate argument: " ++ t)
          else
            match rest with
            | [] =>
              if a.required = true then
                .err ("Missing value for argument: " ++ t)
              else
                .ok (setArg args (substrFrom t 2)
                      { a with value := a.default_value }, 0)
            | v :: _ =>
              if charAt v 0 = '-' then
                if a.required = true then
                  .err ("Missing value for argument: " ++ t)
                else
                  .ok (setArg args (substrFrom t 2)
                        { a with value := a.default_value }, 0)
              else
                .ok (setArg args (substrFrom t 2) { a with value := v }, 1)
    else
      if 1 < t.length then
        if String.singleton (charAt t 1) = "help" ∨ t = "h" then .help
        else
          match List.lookup (String.singleton (charAt t 1)) args with
          | none => .err ("Invalid argument: " ++ t)
          | some a =>
            if a.value ≠ "" then .err ("Duplicate argument: " ++ t)
            else if a.required = true ∧ 1 < t.length - 1 then
              .err ("Missing value for argument: -" ++
                String.singleton (charAt t 1))
            else if t.length = 2 then
              .ok (setArg args (String.singleton (charAt t 1))
                    { a with value := a.default_value }, 0)
            else
              .ok (setArg args (String.singleton (charAt t 1))
                    { a with value := substrFrom t 2 }, 0)
      else .ok (args, 0)
  else .ok (args, 0)

/-- The token loop of `ArgParser::parse_args` over `argv[1..]`. -/
def scan_args : List (String × Arg) → List String →
    ParseOutcome (List (String × Arg))
  | args, [] => .ok args
  | args, [t] =>
    match scan_step args t [] with
    | .ok (args2, _) => .ok args2
    | .err e => .err e
    | .help => .help
  | args, t :: v :: rest =>
    match scan_step args t (v :: rest) with
    | .ok (args2, 0) => scan_args args2 (v :: rest)
    | .ok (args2, _ + 1) => scan_args args2 rest
    | .err e => .err e
    | .help => .help

/-- The final validation loop of `ArgParser::parse_args` (`src/src/utils.cpp`
lines 226-233): a required argument still empty throws; an optional argument
still empty receives its default value. -/
def finalize_args : List (String × Arg) → ParseOutcome (List (String × Arg))
  | [] => .ok []
  | (n, a) :: rest =>
    if a.required = true ∧ a.value = "" then
      .err ("Missing required argument: --" ++ n)
    else
      (finalize_args rest).map
        (fun l =>
          (n, if a.required = false ∧ a.value = "" then
                { a with value := a.default_value }
              else a) :: l)

/-- `ArgParser::parse_args` (`src/src/utils.cpp` lines 169-234): the token
scan over `argv[1..]` followed by the required/default validation loop. -/
def parse_args (args : List (String × Arg)) (argv : List String) :
    ParseOutcome (List (String × Arg)) :=
  match scan_args args (argv.drop 1) with
  | .ok args1 => finalize_args args1
  | .err e => .err e
  | .help => .help

theorem map_eq_ok {α β : Type} (f : α → β) (o : ParseOutcome α) (r : β)
    (h : o.map f = .ok r) : ∃ a, o = .ok a ∧ f a = r := by
  cases o with
  | ok a =>
    refine ⟨a, rfl, ?_⟩
    simpa [ParseOutcome.map] using h
  | err e => simp [ParseOutcome.map] at h
  | help => simp [ParseOutcome.map] at h

theorem finalize_ok_required (l res : List (String × Arg))
    (h : finalize_args l = .ok res) :
    ∀ p ∈ res, p.2.required = true → p.2.value ≠ "" := by
  induction l generalizing res with
  | nil =>
    simp only [finalize_args, ParseOutcome.ok.injEq] at h
    subst h
    intro p hp
    simp at hp
  | cons q rest ih =>
    obtain ⟨n, a⟩ := q
    simp only [finalize_args] at h
    by_cases hba : a.required = true ∧ a.value = ""
    · rw [if_pos hba] at h
      simp at h
    · rw [if_neg hba] at h
      obtain ⟨l₂, hrest, hr⟩ := map_eq_ok _ _ _ h
      subst hr
      intro p hp hreq
      rcases List.mem_cons.mp hp with hp | hp
      · subst hp
        by_cases hopt : a.required = false ∧ a.value = ""
        · rw [if_pos hopt] at hreq
          exact absurd (show a.required = true from hreq)
            (by rw [hopt.1]; decide)
        · rw [if_neg hopt] at hreq ⊢
          intro hv
          exact hba ⟨hreq, hv⟩
      · exact ih l₂ hrest p hp hreq

theorem finalize_ok_optional (l res : List (String × Arg))
    (h : finalize_args l = .ok res) :
    ∀ p ∈ l, p.2.required = false → p.2.value = "" →
      (p.1, { p.2 with value := p.2.default_value }) ∈ res := by
  induction l generalizing res with
  | nil =>
    intro p hp
    simp at hp
  | cons q rest ih =>
    obtain ⟨n, a⟩ := q
    simp only [finalize_args] at h
    by_cases hba : a.required = true ∧ a.value = ""
    · rw [if_pos hba] at h
      simp at h
    · rw [if_neg hba] at h
      obtain ⟨l₂, hrest, hr⟩ := map_eq_ok _ _ _ h
      subst hr
      intro p hp hopt hemp
      rcases List.mem_cons.mp hp with hp | hp
      · subst hp
        rw [if_pos (⟨hopt, hemp⟩ : a.required = false ∧ a.value = "")]
        exact List.mem_cons_self _ _
      · exact List.mem_cons_of_mem _ (ih l₂ hrest p hp hopt hemp)

theorem finalize_err_of_required_empty (l : List (String × Arg))
    (h : ∃ p ∈ l, p.2.required = true ∧ p.2.value = "") :
    ∃ e, finalize_args l = .err e := by
  induction l with
  | nil => simp at h
  | cons q rest ih =>
    obtain ⟨n, a⟩ := q
    obtain ⟨p, hp, hreq, hemp⟩ := h
    simp only [finalize_args]
    by_cases hba : a.required = true ∧ a.value = ""
    · exact ⟨_, by rw [if_pos hba]⟩
    · rw [if_neg hba]
      rcases List.mem_cons.mp hp with hp | hp
      · rw [hp] at hreq hemp
        exact absurd ⟨hreq, hemp⟩ hba
      · obtain ⟨e, he⟩ := ih ⟨p, hp, hreq, hemp⟩
        exact ⟨e, by rw [he]; rfl⟩

/-- C9: whenever `parse_args` returns normally, every required argument has a
non-empty value; an optional argument left empty by the token scan appears in
the result with its default value assigned; and if a required argument is
still empty after the scan, `parse_args` throws. -/
theorem parse_args_required_enforced (args : List (String × Arg))
    (argv : List String) :
    (∀ res, parse_args args argv = .ok res →
      (∀ p ∈ res, p.2.required = true → p.2.value ≠ "") ∧
      (∃ args1, scan_args args (argv.drop 1) = .ok args1 ∧
        ∀ p ∈ args1, p.2.required = false → p.2.value = "" →
          (p.1, { p.2 with value := p.2.default_value }) ∈ res)) ∧
    (∀ args1, scan_args args (argv.drop 1) = .ok args1 →
      (∃ p ∈ args1, p.2.required = true ∧ p.2.value = "") →
      ∃ e, parse_args args argv = .err e) := by
  constructor
  · intro res h
    unfold parse_args at h
    cases hscan : scan_args args (argv.drop 1) with
    | ok args1 =>
      rw [hscan] at h
      exact ⟨finalize_ok_required args1 res h,
        args1, rfl, finalize_ok_optional args1 res h⟩
    | err e => rw [hscan] at h; simp at h
    | help => rw [hscan] at h; simp at h
  · intro args1 hscan hbad
    obtain ⟨e, he⟩ := finalize_err_of_required_empty args1 hbad
    refine ⟨e, ?_⟩
    unfold parse_args
    rw [hscan]
    exact he

/-- Witness for C9: a registered optional argument (default "dv") and a
required one, with argv supplying only the required one. -/
theorem parse_args_required_enforced_witness :
    parse_args [("o", Arg.mk false "dv" "" ""), ("r", Arg.mk true "" "" "")]
        ["FMAlign2", "--r", "x"] =
      .ok [("o", Arg.mk false "dv" "" "dv"), ("r", Arg.mk true "" "" "x")] ∧
    ((∀ p ∈ [("o", Arg.mk false "dv" "" "dv"), ("r", Arg.mk true "" "" "x")],
        p.2.required = true → p.2.value ≠ "") ∧
     (∃ args1,
        scan_args [("o", Arg.mk false "dv" "" ""), ("r", Arg.mk true "" "" "")]
            (["FMAlign2", "--r", "x"].drop 1) = .ok args1 ∧
        ∀ p ∈ args1, p.2.required = false → p.2.value = "" →
          (p.1, { p.2 with value := p.2.default_value }) ∈
            [("o", Arg.mk false "dv" "" "dv"), ("r", Arg.mk true "" "" "x")])) :=
  ⟨by rfl,
   (parse_args_required_enforced
      [("o", Arg.mk false "dv" "" ""), ("r", Arg.mk true "" "" "")]
      ["FMAlign2", "--r", "x"]).1
     [("o", Arg.mk false "dv" "" "dv"), ("r", Arg.mk true "" "" "x")]
     (by rfl)⟩

theorem string_eq_dashdash_help (t : String) (h0 : charAt t 0 = '-')
    (h1 : charAt t 1 = '-') (h2 : substrFrom t 2 = "help") : t = "--help" := by
  obtain ⟨l⟩ := t
  rcases l with _ | ⟨c, _ | ⟨d, cs⟩⟩
  · exact absurd h0 (by decide)
  · simp only [charAt, List.getD_cons_succ, List.getD_nil] at h1
    exact absurd h1 (by decide)
  · have hc : c = '-' := h0
    have hd : d = '-' := h1
    have hcs : cs = "help".data := congrArg String.data h2
    subst hc; subst hd; subst hcs
    rfl

theorem scan_step_help (args : List (String × Arg)) (t : String)
    (rest : List String) (h : scan_step args t rest = .help) : t = "--help" := by
  unfold scan_step at h
  by_cases h0 : charAt t 0 = '-'
  swap
  · rw [if_neg h0] at h
    simp at h
  rw [if_pos h0] at h
  by_cases h1 : charAt t 1 = '-'
  · rw [if_pos h1] at h
    by_cases hhelp : substrFrom t 2 = "help" ∨ t = "h"
    · rcases hhelp with hname | hth
      · exact string_eq_dashdash_help t h0 h1 hname
      · rw [hth] at h0
        exact absurd h0 (by decide)
    · rw [if_neg hhelp] at h
      exfalso
      cases hlk : List.lookup (substrFrom t 2) args with
      | none => rw [hlk] at h; simp at h
      | some a =>
        rw [hlk] at h
        dsimp only at h
        by_cases hv : a.value ≠ ""
        · rw [if_pos hv] at h; simp at h
        · rw [if_neg hv] at h
          cases rest with
          | nil =>
            dsimp only at h
            by_cases hr : a.required = true
            · rw [if_pos hr] at h; simp at h
            · rw [if_neg hr] at h; simp at h
          | cons v vs =>
            dsimp only at h
            by_cases hvd : charAt v 0 = '-'
            · rw [if_pos hvd] at h
              by_cases hr : a.required = true
              · rw [if_pos hr] at h; simp at h
              · rw [if_neg hr] at h; simp at h
            · rw [if_neg hvd] at h; simp at h
  · rw [if_neg h1] at h
    by_cases hlen : 1 < t.length
    · rw [if_pos hlen] at h
      by_cases hhelp : String.singleton (charAt t 1) = "help" ∨ t = "h"
      · exfalso
        rcases hhelp with hname | hth
        · have : [charAt t 1] = "help".data := congrArg String.data hname
          simp at this
        · rw [hth] at h0
          exact absurd h0 (by decide)
      · rw [if_neg hhelp] at h
        exfalso
        cases hlk : List.lookup (String.singleton (charAt t 1)) args with
        | none => rw [hlk] at h; simp at h
        | some a =>
          rw [hlk] at h
          dsimp only at h
          by_cases hv : a.value ≠ ""
          · rw [if_pos hv] at h; simp at h
          · rw [if_neg hv] at h
            by_cases hm : a.required = true ∧ 1 < t.length - 1
            · rw [if_pos hm] at h; simp at h
            · rw [if_neg hm] at h
              by_cases h2 : t.length = 2
              · rw [if_pos h2] at h; simp at h
              · rw [if_neg h2] at h; simp at h
    · rw [if_neg hlen] at h
      simp at h

theorem scan_args_help_mem :
    ∀ (n : ℕ) (l : List String), l.length = n → ∀ args,
      scan_args args l = .help → "--help" ∈ l := by
  intro n
  induction n using Nat.strong_induction_on with
  | _ n ih =>
    intro l hlen args h
    rcases l with _ | ⟨t, _ | ⟨v, rest⟩⟩
    · simp [scan_args] at h
    · simp only [scan_args] at h
      cases hstep : scan_step args t [] with
      | ok p =>
        obtain ⟨args2, k⟩ := p
        rw [hstep] at h
        simp at h
      | err e => rw [hstep] at h; simp at h
      | help =>
        rw [scan_step_help args t [] hstep]
        exact List.mem_singleton_self _
    · simp only [scan_args] at h
      cases hstep : scan_step args t (v :: rest) with
      | ok p =>
        obtain ⟨args2, k⟩ := p
        rw [hstep] at h
        cases k with
        | zero =>
          have hm := ih (v :: rest).length
            (by rw [← hlen]; simp) (v :: rest) rfl args2 h
          exact List.mem_cons_of_mem _ hm
        | succ k2 =>
          have hm := ih rest.length
            (by rw [← hlen]; simp; omega) rest rfl args2 h
          exact List.mem_cons_of_mem _ (List.mem_cons_of_mem _ hm)
      | err e => rw [hstep] at h; simp at h
      | help =>
        rw [scan_step_help args t (v :: rest) hstep]
        exact List.mem_cons_self _ _

theorem finalize_args_ne_help (l : List (String × Arg)) :
    finalize_args l ≠ .help := by
  induction l with
  | nil => simp [finalize_args]
  | cons q rest ih =>
    obtain ⟨n, a⟩ := q
    simp only [finalize_args]
    by_cases hba : a.required = true ∧ a.value = ""
    · rw [if_pos hba]; simp
    · rw [if_neg hba]
      cases hrest : finalize_args rest with
      | ok l₂ => simp [ParseOutcome.map]
      | err e => simp [ParseOutcome.map]
      | help => exact absurd hrest ih

theorem scan_step_dash_h (args : List (String × Arg)) (rest : List String)
    (hh : List.lookup "h" args = none) :
    scan_step args "-h" rest = .err ("Invalid argument: -h") := by
  unfold scan_step
  rw [if_pos (by decide : charAt "-h" 0 = '-')]
  rw [if_neg (by decide : ¬ charAt "-h" 1 = '-')]
  rw [if_pos (by decide : 1 < ("-h" : String).length)]
  rw [if_neg (by decide :
    ¬ (String.singleton (charAt "-h" 1) = "help" ∨ ("-h" : String) = "h"))]
  rw [show String.singleton (charAt "-h" 1) = "h" from by decide]
  rw [hh]
  rfl

theorem scan_args_dash_h (args : List (String × Arg)) (rest : List String)
    (hh : List.lookup "h" args = none) :
    scan_args args ("-h" :: rest) = .err ("Invalid argument: -h") := by
  cases rest with
  | nil =>
    simp only [scan_args]
    rw [scan_step_dash_h args [] hh]
  | cons v vs =>
    simp only [scan_args]
    rw [scan_step_dash_h args (v :: vs) hh]

/-- C10: `parse_args` triggers help only for the long form token; a run that
ends in help had a literal "--help" among the scanned tokens, and a short-form
"-h" token, with no argument named "h" registered, is rejected with
std::invalid_argument instead of printing help. -/
theorem parse_args_help_only_long_form (args : List (String × Arg))
    (argv : List String) (prog : String) (rest : List String)
    (hh : List.lookup "h" args = none) :
    (parse_args args argv = .help → "--help" ∈ argv.drop 1) ∧
    parse_args args (prog :: "-h" :: rest) = .err ("Invalid argument: -h") := by
  constructor
  · intro h
    unfold parse_args at h
    cases hscan : scan_args args (argv.drop 1) with
    | ok a1 =>
      rw [hscan] at h
      exact absurd h (finalize_args_ne_help a1)
    | err e => rw [hscan] at h; simp at h
    | help => exact scan_args_help_mem (argv.drop 1).length _ rfl args hscan
  · unfold parse_args
    rw [show (prog :: "-h" :: rest).drop 1 = "-h" :: rest from rfl]
    rw [scan_args_dash_h args rest hh]

/-- Witness for C10: one registered argument "t", no "h"; "-h" is rejected. -/
theorem parse_args_help_only_long_form_witness :
    List.lookup "h" [("t", Arg.mk false "4" "" "")] = none ∧
    ((parse_args [("t", Arg.mk false "4" "" "")] ["FMAlign2", "--t", "8"] =
        .help → "--help" ∈ (["FMAlign2", "--t", "8"] : List String).drop 1) ∧
     parse_args [("t", Arg.mk false "4" "" "")] ("FMAlign2" :: "-h" :: []) =
       .err ("Invalid argument: -h")) :=
  ⟨by rfl,
   parse_args_help_only_long_form [("t", Arg.mk false "4" "" "")]
     ["FMAlign2", "--t", "8"] "FMAlign2" [] (by rfl)⟩

end FMAlign2
